import Mathlib

/-
Verification development for the Pooh-League aggregation scripts.

The definitions below are shallow embeddings of the Python sources:
  app/build_player_pooh_summary.py  (identity normalizer, snapshot fold)
  app/build_summary_to_date.py      (owner-to-team normalizer, per-team buckets)
  app/build_team_pages.py           (eligibility classifier, lineup DP solver,
                                     actual-starter totals)
Machine integers are modelled as Int / Nat; Python dicts and sets are modelled
as functions into Option / Bool built by pointwise update; fallible loads are
modelled with Except.  Regular-expression steps of norm_name are modelled by
the equivalent character-level pipeline, documented at each definition.
-/

/-- Models the Python regex class backslash-w (word character) in its ASCII
fragment: letters, digits, or underscore.  Used by the norm_name embedding of
the substitution of every character matching the negated class by a space. -/
def isWordChar (c : Char) : Bool := c.isAlphanum || c = '_'

/-- Models the Python regex class backslash-s (whitespace). -/
def isSpaceChar (c : Char) : Bool := c.isWhitespace

/-- Step 1 of norm_name: the str.lower() call, character by character. -/
def lowerStep (l : List Char) : List Char := l.map Char.toLower

/-- Step 2 of norm_name: re.sub replacing every character that is neither a
word character nor whitespace with a single space.  After this step every
character of the string is a word character or whitespace. -/
def punctStep (l : List Char) : List Char :=
  l.map (fun c => if isWordChar c || isSpaceChar c then c else ' ')

/-- Splits a character list into its maximal runs of non-whitespace
characters, accumulating the current run in acc (reversed). -/
def wordsAux : List Char → List Char → List (List Char)
  | [], acc => if acc.isEmpty then [] else [acc.reverse]
  | c :: cs, acc =>
      if isSpaceChar c then
        if acc.isEmpty then wordsAux cs [] else acc.reverse :: wordsAux cs []
      else wordsAux cs (c :: acc)

/-- The word tokens of a character list (maximal non-whitespace runs). -/
def splitWords (l : List Char) : List (List Char) := wordsAux l []

/-- The generational suffix tokens removed by norm_name: jr, sr, ii, iii, iv. -/
def suffixToks : List (List Char) :=
  ["jr".data, "sr".data, "ii".data, "iii".data, "iv".data]

/-- Joins word tokens with single spaces (no leading or trailing space). -/
def joinWords : List (List Char) → List Char
  | [] => []
  | [w] => w
  | w :: ws => w ++ ' ' :: joinWords ws

/-- Steps 3 to 5 of norm_name, composed: the re.sub removing whole-word
generational suffixes, the re.sub collapsing whitespace runs to one space,
and the final strip().  After punctStep every character is a word character
or whitespace, so the word-boundary anchors of the suffix regex match
exactly at token edges; replacing a whole token by a space and then
collapsing and trimming whitespace is the same as dropping the suffix tokens
from the token list and re-joining the remaining tokens with single
spaces, which is what this composition computes. -/
def normChars (l : List Char) : List Char :=
  joinWords (((splitWords (punctStep (lowerStep l))).filter
    (fun t => !(suffixToks.contains t))))

/-- The norm_name function shared verbatim by build_player_pooh_summary.py,
build_team_pages.py (and build_stat_pages.py): lowercase, replace every
non-word non-whitespace character by a space, remove whole-word generational
suffixes, collapse whitespace, trim. -/
def norm_name (s : String) : String := ⟨normChars s.data⟩

/-- Models the Python str.strip() call: drop whitespace from both ends. -/
def strip (s : String) : String :=
  ⟨((s.data.dropWhile isSpaceChar).reverse.dropWhile isSpaceChar).reverse⟩

/-- Models a Python dict built by successive assignments d[k] = v over the
given pairs (later assignments overwrite earlier ones), exposed as its
lookup function d.get(k) returning none when the key is absent. -/
def dictBuild (l : List (String × String)) : String → Option String :=
  l.foldl (fun m kv => fun q => if q = kv.1 then some kv.2 else m q) (fun _ => none)

/-- The row-filtering shared by all three load_team_name_map variants: each
worksheet row contributes the stripped (Owner, Team Name) cell pair, and rows
with either field blank are dropped. -/
def teamMapRows (rows : List (String × String)) : List (String × String) :=
  rows.filterMap (fun rw =>
    if strip rw.1 ≠ "" ∧ strip rw.2 ≠ "" then some (strip rw.1, strip rw.2) else none)

/-- build_team_pages.load_team_name_map: when the mapping workbook is absent
(input none) the script raises SystemExit, modelled as an error; otherwise it
returns the dict content of the kept rows. -/
def btp_load_team_name_map (input : Option (List (String × String))) :
    Except String (List (String × String)) :=
  match input with
  | none => Except.error "ERROR: Missing Team_Names.xlsx"
  | some rows => Except.ok (teamMapRows rows)

/-- build_player_pooh_summary.load_team_name_map: when the mapping workbook is
absent the script prints a NOTE and returns the empty dict, continuing the
run; otherwise it returns the dict content of the kept rows. -/
def bpps_load_team_name_map (input : Option (List (String × String))) :
    Except String (List (String × String)) :=
  match input with
  | none => Except.ok []
  | some rows => Except.ok (teamMapRows rows)

/-- build_summary_to_date.load_team_name_map: when the mapping workbook is
absent the script silently behaves like no mapping and returns the empty
dict; otherwise it returns the dict content of the kept rows. -/
def bstd_load_team_name_map (input : Option (List (String × String))) :
    Except String (List (String × String)) :=
  match input with
  | none => Except.ok []
  | some rows => Except.ok (teamMapRows rows)

/-- True exactly when an Except value is ok, i.e. the load did not abort. -/
def exceptIsOk {ε α : Type} : Except ε α → Bool
  | Except.ok _ => true
  | Except.error _ => false

/-- display_team of build_player_pooh_summary.py: strip, keep blanks and the
Undrafted sentinel unchanged, otherwise map through the team-name dict with
the input itself as default. -/
def display_team (name : String) (tm : List (String × String)) : String :=
  let s := strip name
  if s = "" then s
  else if s = "Undrafted" then s
  else (dictBuild tm s).getD s

/-- Models the whitespace-run collapsing regex of canon_owner_key; the flag
records whether the previous character was inside a whitespace run. -/
def collapseWSAux : List Char → Bool → List Char
  | [], _ => []
  | c :: cs, inRun =>
      if isSpaceChar c then
        if inRun then collapseWSAux cs true else ' ' :: collapseWSAux cs true
      else c :: collapseWSAux cs false

/-- canon_owner_key of build_summary_to_date.py: strip, lowercase, collapse
whitespace runs to one space, replace en and em dashes by a hyphen. -/
def canon_owner_key (s : String) : String :=
  let t := (strip s).data.map Char.toLower
  let u := collapseWSAux t false
  ⟨u.map (fun c => if c = '–' ∨ c = '—' then '-' else c)⟩

/-- Membership of a label among the values of the dict built from the pairs,
modelling the set(team_map.values()) test of build_owner_to_team_normalizer. -/
def teamValuesHave (tm : List (String × String)) (s : String) : Bool :=
  tm.any (fun kv => dictBuild tm kv.1 = some s)

/-- normalize_owner_to_team of build_summary_to_date.py: blanks and the
Undrafted sentinel are returned unchanged; an old owner name maps through the
dict to its team name; a label already among the team-name values is kept;
anything else is left as-is. -/
def normalize_owner_to_team (tm : List (String × String)) (owner_raw : String) :
    String :=
  let s := strip owner_raw
  if s = "" then s
  else if s = "Undrafted" then s
  else
    match dictBuild tm s with
    | some t => t
    | none => if teamValuesHave tm s then s else s

/-- The canonical per-team bucket key build_summary_to_date.main computes for
an owner cell: normalize to the display team name, then canon_owner_key. -/
def bucketKey (tm : List (String × String)) (owner_raw : String) : String :=
  canon_owner_key (normalize_owner_to_team tm owner_raw)

/-- The per_team_per_pd fold of build_summary_to_date.main restricted to one
period file: each (owner cell, total) entry writes its value at
(bucketKey owner, pd), later entries overwriting earlier ones. -/
def foldOwnerTotals (tm : List (String × String)) (pd : Nat)
    (entries : List (String × Int)) : String → Nat → Option Int :=
  entries.foldl
    (fun m e => fun k q =>
      if k = bucketKey tm e.1 ∧ q = pd then some e.2 else m k q)
    (fun _ _ => none)

/-- One parsed row of a Final_Players_PD file as consumed by
build_player_pooh_summary.load_final_player_data: the raw player cell, the
period number of the file, the parsed pooh value and integer stat cells, the
raw owner cell, and the starter flag (present in some files but never read by
this script's fold).  The fractional minutes column is a display-only float
accumulator and is not modelled. -/
structure SRow where
  player : String
  pd : Nat
  pooh : Int
  pts : Int
  reb : Int
  ast : Int
  stl : Int
  blk : Int
  tov : Int
  owner : String
  started : Bool

/-- The accumulator state of build_player_pooh_summary.load_final_player_data:
played_by_player (sets of periods), pooh_by_player_pd (sparse score maps),
the agg stat totals with the games counter, and owner_by_player. -/
structure PState where
  played : String → Nat → Bool
  pooh : String → Nat → Option Int
  games : String → Nat
  pts : String → Int
  reb : String → Int
  ast : String → Int
  stl : String → Int
  blk : String → Int
  tov : String → Int
  owner_by_player : String → Option String

/-- The empty accumulator (all defaultdicts empty). -/
def initPState : PState :=
  { played := fun _ _ => false
    pooh := fun _ _ => none
    games := fun _ => 0
    pts := fun _ => 0
    reb := fun _ => 0
    ast := fun _ => 0
    stl := fun _ => 0
    blk := fun _ => 0
    tov := fun _ => 0
    owner_by_player := fun _ => none }

/-- The per-row body of the load_final_player_data loop: skip the row when the
player name normalizes to empty; otherwise add the period to the played set,
overwrite the sparse pooh entry at (key, pd), increment games by one, add the
stat cells into the totals, and record the display-mapped owner when the
owner cell is nonblank. -/
def foldRow (tm : List (String × String)) (st : PState) (r : SRow) : PState :=
  let key := norm_name r.player
  if key = "" then st
  else
    { played := fun k q => if k = key ∧ q = r.pd then true else st.played k q
      pooh := fun k q => if k = key ∧ q = r.pd then some r.pooh else st.pooh k q
      games := fun k => if k = key then st.games k + 1 else st.games k
      pts := fun k => if k = key then st.pts k + r.pts else st.pts k
      reb := fun k => if k = key then st.reb k + r.reb else st.reb k
      ast := fun k => if k = key then st.ast k + r.ast else st.ast k
      stl := fun k => if k = key then st.stl k + r.stl else st.stl k
      blk := fun k => if k = key then st.blk k + r.blk else st.blk k
      tov := fun k => if k = key then st.tov k + r.tov else st.tov k
      owner_by_player := fun k =>
        if k = key ∧ strip r.owner ≠ "" then some (display_team (strip r.owner) tm)
        else st.owner_by_player k }

/-- The running score total build_player_pooh_summary.main computes for a
player: over periods 1..maxPd, when the period is in the played set, add the
sparse pooh entry (with default 0). -/
def totalPooh (st : PState) (key : String) (maxPd : Nat) : Int :=
  ((List.range' 1 maxPd).map
    (fun pd => if st.played key pd then (st.pooh key pd).getD 0 else 0)).sum

/-- classify_pos of build_team_pages.py: uppercase and remove spaces; a label
with both a guard letter and a frontcourt letter (F or C) is flex GF, only G
is guard-only, only F or C is forward-only, anything else (or empty) is the
unknown class, written as the empty string. -/
def classify_pos (pos : String) : String :=
  let p := (pos.data.map Char.toUpper).filter (fun c => c ≠ ' ')
  if p.isEmpty then ""
  else
    let has_g := p.contains 'G'
    let has_f := p.contains 'F' || p.contains 'C'
    if has_g && has_f then "GF"
    else if has_g then "G"
    else if has_f then "F"
    else ""

/-- The sentinel used by best_valid_lineup_sum for unreachable DP states. -/
def NEG : Int := -(10 ^ 18)

/-- The pos_class sanitation at the top of the DP loop: anything outside
G, F, GF, empty is treated as the empty (flex) class. -/
def sanitizePC (pc : String) : String :=
  if pc = "G" ∨ pc = "F" ∨ pc = "GF" ∨ pc = "" then pc else ""

/-- The pc in ("G", "GF", "") test guarding the take-as-Guard transition. -/
def guardEligible (pc : String) : Bool := pc = "G" ∨ pc = "GF" ∨ pc = ""

/-- The pc in ("F", "GF", "") test guarding the take-as-Forward transition. -/
def forwardEligible (pc : String) : Bool := pc = "F" ∨ pc = "GF" ∨ pc = ""

/-- One candidate step of the best_valid_lineup_sum DP.  The Python loop reads
only the previous table dp and writes ndp with max, so the new value at
(p, g) is the old value maxed with the take-as-Guard contribution from
(p-1, g-1) and the take-as-Forward contribution from (p-1, g), each under the
source-range conditions of the loops (picked 0..4, guards 0..3), the
non-sentinel test on the source cell, and the quota bounds new-guards at most
3 and new-forwards at most 3 (new-forwards = p - g, written p at most
g + 3 to avoid truncated subtraction). -/
def dpStep (pooh : Int) (pc : String) (dp : Nat → Nat → Int) : Nat → Nat → Int :=
  fun p g =>
    let v1 :=
      if guardEligible pc = true ∧ 1 ≤ p ∧ p ≤ 5 ∧ 1 ≤ g ∧ g ≤ 3 ∧ p ≤ g + 3 ∧
          dp (p - 1) (g - 1) ≠ NEG
      then max (dp p g) (dp (p - 1) (g - 1) + pooh)
      else dp p g
    if forwardEligible pc = true ∧ 1 ≤ p ∧ p ≤ 5 ∧ g ≤ 3 ∧ p ≤ g + 3 ∧
        dp (p - 1) g ≠ NEG
    then max v1 (dp (p - 1) g + pooh)
    else v1

/-- The initial DP table: dp[0][0] = 0, every other state the sentinel. -/
def dpInit : Nat → Nat → Int := fun p g => if p = 0 ∧ g = 0 then 0 else NEG

/-- Folding a DP table through the candidate list, sanitizing each class. -/
def dpFold (dp : Nat → Nat → Int) (items : List (Int × String)) : Nat → Nat → Int :=
  items.foldl (fun d it => dpStep it.1 (sanitizePC it.2) d) dp

/-- The DP table after processing all candidates from the initial table. -/
def runDP (items : List (Int × String)) : Nat → Nat → Int := dpFold dpInit items

/-- best_valid_lineup_sum of build_team_pages.py: 0 for fewer than five
candidates; otherwise run the DP and return the better of the terminal
states (5 picked, 2 guards) and (5 picked, 3 guards), with 0 when both are
still the sentinel. -/
def best_valid_lineup_sum (items : List (Int × String)) : Int :=
  if items.length < 5 then 0
  else
    let dpF := runDP items
    let best := max (dpF 5 2) (dpF 5 3)
    if best = NEG then 0 else best

/-- A per-candidate decision in a lineup selection: leave the candidate out,
assign the Guard slot, or assign the Forward slot. -/
inductive Choice where
  | skip
  | guard
  | fwd
deriving DecidableEq, Repr

/-- Number of players a single choice selects. -/
def chPicked : Choice → Nat
  | .skip => 0
  | .guard => 1
  | .fwd => 1

/-- Number of guard slots a single choice fills. -/
def chGuards : Choice → Nat
  | .guard => 1
  | _ => 0

/-- Total players selected by a choice list. -/
def pickedCount (cs : List Choice) : Nat := (cs.map chPicked).sum

/-- Total guard slots filled by a choice list. -/
def guardCount (cs : List Choice) : Nat := (cs.map chGuards).sum

/-- Sum of the scores of the selected candidates. -/
def chosenSum : List (Int × String) → List Choice → Int
  | [], _ => 0
  | _, [] => 0
  | it :: its, c :: cs => (if c = Choice.skip then 0 else it.1) + chosenSum its cs

/-- A choice list is legal for a candidate list when the two align and each
slot assignment respects the candidate's (sanitized) eligibility class. -/
def legalChoices : List (Int × String) → List Choice → Prop
  | [], [] => True
  | it :: its, c :: cs =>
      (match c with
       | Choice.skip => True
       | Choice.guard => guardEligible (sanitizePC it.2) = true
       | Choice.fwd => forwardEligible (sanitizePC it.2) = true) ∧ legalChoices its cs
  | _, _ => False

/-- One parsed row of a Final_Players_PD file as consumed by
build_team_pages.load_final_player_data_and_actuals for a single period:
raw owner cell, raw player cell, parsed pooh value, and the detected starter
flag (css class, started_today column, or bold markup). -/
structure TRow where
  owner : String
  player : String
  pooh : Int
  started : Bool

/-- A row is kept by the loop when its stripped owner and player cells are
nonblank and the player name normalizes to a nonempty key. -/
def rowKept (r : TRow) : Bool :=
  strip r.owner ≠ "" && strip r.player ≠ "" && norm_name (strip r.player) ≠ ""

/-- team_map_rev.get(owner_raw, owner_raw): map the owner cell back to the
old owner label through the reversed mapping dict, identity when unmapped. -/
def resolveOwner (tmRev : List (String × String)) (ow : String) : String :=
  (dictBuild tmRev ow).getD ow

/-- actual_by_owner_pd of build_team_pages for one owner and one period: the
sum of the pooh values of the kept rows whose resolved owner matches and
whose starter flag is set. -/
def actualFor (tmRev : List (String × String)) (rows : List TRow)
    (owner : String) : Int :=
  rows.foldl
    (fun acc r =>
      if rowKept r = true ∧ resolveOwner tmRev (strip r.owner) = owner ∧
          r.started = true
      then acc + r.pooh else acc)
    0

/-- pooh_by_player_pd for one period: the last kept row for the player key
wins (dict overwrite), none when the player does not appear. -/
def poohAt (rows : List TRow) (key : String) : Option Int :=
  rows.foldl
    (fun acc r =>
      if rowKept r = true ∧ norm_name (strip r.player) = key then some r.pooh else acc)
    none

/-- The candidate pool build_team_pages.main assembles for one owner and one
period: over the rostered (player key, position) pairs, keep the players
present in the period's sparse map, pairing their pooh with the classified
position. -/
def itemsFor (rows : List TRow) (roster : List (String × String)) :
    List (Int × String) :=
  roster.filterMap (fun kp => (poohAt rows kp.1).map (fun v => (v, classify_pos kp.2)))

/-- The maxScore build_team_pages.main computes for one owner and one period:
the lineup solver applied to the period's candidate pool. -/
def maxFor (rows : List TRow) (roster : List (String × String)) : Int :=
  best_valid_lineup_sum (itemsFor rows roster)
theorem char_toNat_ofNat {n : Nat} (h : n < 0xd800) : (Char.ofNat n).toNat = n := by
  rw [Char.ofNat, dif_pos (Or.inl h)]
  simp [Char.ofNatAux, Char.toNat, UInt32.toNat]

theorem char_toLower_idem (c : Char) : c.toLower.toLower = c.toLower := by
  unfold Char.toLower
  by_cases h : c.toNat >= 65 ∧ c.toNat <= 90
  · rw [if_pos h]
    have hv : (Char.ofNat (c.toNat + 32)).toNat = c.toNat + 32 :=
      char_toNat_ofNat (by omega)
    rw [if_neg (by omega)]
  · rw [if_neg h, if_neg h]

theorem mem_punctStep_lowerStep (l : List Char) :
    ∀ c ∈ punctStep (lowerStep l),
      (isWordChar c || isSpaceChar c) = true ∧ c.toLower = c := by
  intro c hc
  simp only [punctStep, lowerStep, List.map_map, List.mem_map] at hc
  obtain ⟨c0, _, rfl⟩ := hc
  simp only [Function.comp_apply]
  by_cases h : (isWordChar c0.toLower || isSpaceChar c0.toLower) = true
  · rw [if_pos h]
    exact ⟨h, char_toLower_idem c0⟩
  · rw [if_neg h]
    refine ⟨by decide, by decide⟩

theorem wordsAux_tokens (P : Char → Prop) :
    ∀ (l acc : List Char),
      (∀ c ∈ l, isSpaceChar c = false → P c) →
      (∀ c ∈ acc, P c ∧ isSpaceChar c = false) →
      ∀ t ∈ wordsAux l acc, t ≠ [] ∧ ∀ c ∈ t, P c ∧ isSpaceChar c = false
  | [], acc, _, hacc, t, ht => by
      unfold wordsAux at ht
      by_cases h : acc.isEmpty
      · simp [h] at ht
      · rw [if_neg h] at ht
        simp only [List.mem_singleton] at ht
        subst ht
        constructor
        · simp only [ne_eq, List.reverse_eq_nil_iff]
          intro hnil
          rw [hnil] at h
          exact h rfl
        · intro c hc
          exact hacc c (List.mem_reverse.mp hc)
  | c :: cs, acc, hl, hacc, t, ht => by
      unfold wordsAux at ht
      by_cases hs : isSpaceChar c
      · rw [if_pos hs] at ht
        by_cases he : acc.isEmpty
        · rw [if_pos he] at ht
          exact wordsAux_tokens P cs []
            (fun d hd => hl d (List.mem_cons_of_mem c hd)) (by simp) t ht
        · rw [if_neg he] at ht
          rcases List.mem_cons.mp ht with h1 | h2
          · subst h1
            constructor
            · simp only [ne_eq, List.reverse_eq_nil_iff]
              intro hnil
              rw [hnil] at he
              exact he rfl
            · intro d hd
              exact hacc d (List.mem_reverse.mp hd)
          · exact wordsAux_tokens P cs []
              (fun d hd => hl d (List.mem_cons_of_mem c hd)) (by simp) t h2
      · rw [if_neg hs] at ht
        refine wordsAux_tokens P cs (c :: acc)
          (fun d hd => hl d (List.mem_cons_of_mem c hd)) ?_ t ht
        intro d hd
        rcases List.mem_cons.mp hd with h1 | h2
        · rw [h1]
          exact ⟨hl c (List.mem_cons_self c cs) (by simpa using hs), by simpa using hs⟩
        · exact hacc d h2

theorem mem_joinWords : ∀ (ts : List (List Char)) (c : Char),
    c ∈ joinWords ts → (∃ t ∈ ts, c ∈ t) ∨ c = ' '
  | [], c, hc => by simp [joinWords] at hc
  | [w], c, hc => by
      simp only [joinWords] at hc
      exact Or.inl ⟨w, List.mem_singleton_self w, hc⟩
  | w :: w' :: ts', c, hc => by
      simp only [joinWords, List.mem_append, List.mem_cons] at hc
      rcases hc with h1 | h2 | h3
      · exact Or.inl ⟨w, List.mem_cons_self _ _, h1⟩
      · exact Or.inr h2
      · rcases mem_joinWords (w' :: ts') c h3 with ⟨t, ht, hct⟩ | hsp
        · exact Or.inl ⟨t, List.mem_cons_of_mem _ ht, hct⟩
        · exact Or.inr hsp

theorem wordsAux_append : ∀ (w r acc : List Char),
    (∀ c ∈ w, isSpaceChar c = false) →
    wordsAux (w ++ r) acc = wordsAux r (w.reverse ++ acc)
  | [], r, acc, _ => by simp
  | c :: w', r, acc, hw => by
      rw [List.cons_append, wordsAux,
        if_neg (by simp [hw c (List.mem_cons_self c w')]),
        wordsAux_append w' r (c :: acc) (fun d hd => hw d (List.mem_cons_of_mem c hd))]
      simp

theorem splitWords_joinWords :
    ∀ (ts : List (List Char)),
      (∀ t ∈ ts, t ≠ [] ∧ ∀ c ∈ t, isSpaceChar c = false) →
      splitWords (joinWords ts) = ts
  | [], _ => by simp [splitWords, joinWords, wordsAux]
  | [w], h => by
      obtain ⟨hne, hns⟩ := h w (List.mem_singleton_self w)
      simp only [splitWords, joinWords]
      rw [show w = w ++ [] by simp, wordsAux_append w [] [] hns]
      unfold wordsAux
      rw [if_neg (by simpa using hne)]
      simp
  | w :: w' :: ts', h => by
      obtain ⟨hne, hns⟩ := h w (List.mem_cons_self _ _)
      simp only [splitWords, joinWords]
      rw [wordsAux_append w (' ' :: joinWords (w' :: ts')) [] hns]
      unfold wordsAux
      rw [if_pos (by decide)]
      rw [if_neg (by simpa using hne)]
      simp only [List.append_nil, List.reverse_reverse]
      have := splitWords_joinWords (w' :: ts') (fun t ht => h t (List.mem_cons_of_mem _ ht))
      simp only [splitWords] at this
      rw [this]

theorem map_id_of_mem {α : Type} : ∀ (l : List α) (f : α → α),
    (∀ a ∈ l, f a = a) → l.map f = l
  | [], _, _ => rfl
  | a :: l', f, h => by
      simp only [List.map_cons, h a (List.mem_cons_self a l')]
      rw [map_id_of_mem l' f (fun b hb => h b (List.mem_cons_of_mem a hb))]

theorem normChars_token_facts (l : List Char) :
    ∀ t ∈ (splitWords (punctStep (lowerStep l))).filter
        (fun t => !(suffixToks.contains t)),
      t ≠ [] ∧ ∀ c ∈ t, (isWordChar c = true ∧ c.toLower = c) ∧ isSpaceChar c = false := by
  intro t ht
  refine wordsAux_tokens (fun c => isWordChar c = true ∧ c.toLower = c)
    (punctStep (lowerStep l)) [] ?_ (by simp) t (List.mem_of_mem_filter ht)
  intro c hc hns
  obtain ⟨hws, hlow⟩ := mem_punctStep_lowerStep l c hc
  rw [hns, Bool.or_false] at hws
  exact ⟨hws, hlow⟩

theorem normChars_chars (l : List Char) :
    ∀ c ∈ normChars l, isWordChar c = true ∨ c = ' ' := by
  intro c hc
  unfold normChars at hc
  rcases mem_joinWords _ c hc with ⟨t, ht, hct⟩ | hsp
  · exact Or.inl (((normChars_token_facts l t ht).2 c hct).1.1)
  · exact Or.inr hsp

theorem normChars_idem (l : List Char) : normChars (normChars l) = normChars l := by
  have htok := normChars_token_facts l
  set ts := (splitWords (punctStep (lowerStep l))).filter
    (fun t => !(suffixToks.contains t)) with hts
  have hnorm : normChars l = joinWords ts := rfl
  have hout : ∀ c ∈ joinWords ts, (isWordChar c = true ∧ c.toLower = c) ∨ c = ' ' := by
    intro c hc
    rcases mem_joinWords ts c hc with ⟨t, ht, hct⟩ | hsp
    · exact Or.inl ((htok t ht).2 c hct).1
    · exact Or.inr hsp
  have hlower : lowerStep (joinWords ts) = joinWords ts := by
    refine map_id_of_mem _ _ (fun c hc => ?_)
    rcases hout c hc with ⟨_, hlow⟩ | hsp
    · exact hlow
    · rw [hsp]; decide
  have hpunct : punctStep (joinWords ts) = joinWords ts := by
    refine map_id_of_mem _ _ (fun c hc => ?_)
    rcases hout c hc with ⟨hw, _⟩ | hsp
    · rw [if_pos (by rw [hw]; rfl)]
    · rw [hsp]; decide
  have hsplit : splitWords (joinWords ts) = ts :=
    splitWords_joinWords ts
      (fun t ht => ⟨(htok t ht).1, fun c hc => ((htok t ht).2 c hc).2⟩)
  have hfilt : ts.filter (fun t => !(suffixToks.contains t)) = ts := by
    refine List.filter_eq_self.mpr (fun t ht => ?_)
    rw [hts] at ht
    exact (List.mem_filter.mp ht).2
  rw [hnorm]
  unfold normChars
  rw [hlower, hpunct, hsplit, hfilt]

theorem dpStep_le (pooh : Int) (pc : String) (dp : Nat → Nat → Int) (p g : Nat) :
    dp p g ≤ dpStep pooh pc dp p g := by
  unfold dpStep
  by_cases h1 : guardEligible pc = true ∧ 1 ≤ p ∧ p ≤ 5 ∧ 1 ≤ g ∧ g ≤ 3 ∧ p ≤ g + 3 ∧
      dp (p - 1) (g - 1) ≠ NEG
  · rw [if_pos h1]
    by_cases h2 : forwardEligible pc = true ∧ 1 ≤ p ∧ p ≤ 5 ∧ g ≤ 3 ∧ p ≤ g + 3 ∧
        dp (p - 1) g ≠ NEG
    · rw [if_pos h2]
      exact le_trans (le_max_left _ _) (le_max_left _ _)
    · rw [if_neg h2]
      exact le_max_left _ _
  · rw [if_neg h1]
    by_cases h2 : forwardEligible pc = true ∧ 1 ≤ p ∧ p ≤ 5 ∧ g ≤ 3 ∧ p ≤ g + 3 ∧
        dp (p - 1) g ≠ NEG
    · rw [if_pos h2]
      exact le_max_left _ _
    · rw [if_neg h2]

theorem dpStep_guard_ge (pooh : Int) (pc : String) (dp : Nat → Nat → Int) (p g : Nat)
    (hge : guardEligible pc = true) (hp1 : 1 ≤ p) (hp5 : p ≤ 5) (hg1 : 1 ≤ g)
    (hg3 : g ≤ 3) (hpg : p ≤ g + 3) (hne : dp (p - 1) (g - 1) ≠ NEG) :
    dp (p - 1) (g - 1) + pooh ≤ dpStep pooh pc dp p g := by
  have hc : guardEligible pc = true ∧ 1 ≤ p ∧ p ≤ 5 ∧ 1 ≤ g ∧ g ≤ 3 ∧ p ≤ g + 3 ∧
      dp (p - 1) (g - 1) ≠ NEG := ⟨hge, hp1, hp5, hg1, hg3, hpg, hne⟩
  unfold dpStep
  rw [if_pos hc]
  by_cases h2 : forwardEligible pc = true ∧ 1 ≤ p ∧ p ≤ 5 ∧ g ≤ 3 ∧ p ≤ g + 3 ∧
      dp (p - 1) g ≠ NEG
  · rw [if_pos h2]
    exact le_trans (le_max_right _ _) (le_max_left _ _)
  · rw [if_neg h2]
    exact le_max_right _ _

theorem dpStep_forward_ge (pooh : Int) (pc : String) (dp : Nat → Nat → Int) (p g : Nat)
    (hfe : forwardEligible pc = true) (hp1 : 1 ≤ p) (hp5 : p ≤ 5)
    (hg3 : g ≤ 3) (hpg : p ≤ g + 3) (hne : dp (p - 1) g ≠ NEG) :
    dp (p - 1) g + pooh ≤ dpStep pooh pc dp p g := by
  have hc : forwardEligible pc = true ∧ 1 ≤ p ∧ p ≤ 5 ∧ g ≤ 3 ∧ p ≤ g + 3 ∧
      dp (p - 1) g ≠ NEG := ⟨hfe, hp1, hp5, hg3, hpg, hne⟩
  unfold dpStep
  rw [if_pos hc]
  exact le_max_right _ _

theorem guardCount_le_pickedCount : ∀ cs : List Choice, guardCount cs ≤ pickedCount cs
  | [] => le_refl 0
  | c :: cs => by
      have ih := guardCount_le_pickedCount cs
      have hc : chGuards c ≤ chPicked c := by cases c <;> decide
      simp only [guardCount, pickedCount, List.map_cons, List.sum_cons] at *
      omega

theorem chosenSum_nonneg : ∀ (items : List (Int × String)) (cs : List Choice),
    (∀ x ∈ items, 0 ≤ x.1) → 0 ≤ chosenSum items cs
  | [], cs, _ => by cases cs <;> simp [chosenSum]
  | _ :: _, [], _ => by simp [chosenSum]
  | it :: its, c :: cs, h => by
      have ih := chosenSum_nonneg its cs (fun x hx => h x (List.mem_cons_of_mem it hx))
      have h1 : (0 : Int) ≤ (if c = Choice.skip then 0 else it.1) := by
        by_cases hc : c = Choice.skip
        · simp [hc]
        · simpa [hc] using h it (List.mem_cons_self it its)
      simp only [chosenSum]
      omega

theorem NEG_lt_zero : NEG < 0 := by decide

theorem dpFold_ge_choice :
    ∀ (items : List (Int × String)) (cs : List Choice) (dp : Nat → Nat → Int)
      (p0 g0 : Nat),
      legalChoices items cs →
      (∀ x ∈ items, 0 ≤ x.1) →
      0 ≤ dp p0 g0 →
      p0 + pickedCount cs ≤ 5 →
      g0 + guardCount cs ≤ 3 →
      p0 + pickedCount cs ≤ (g0 + guardCount cs) + 3 →
      dp p0 g0 + chosenSum items cs ≤
        dpFold dp items (p0 + pickedCount cs) (g0 + guardCount cs)
  | [], [], dp, p0, g0, _, _, _, _, _, _ => by
      simp [dpFold, chosenSum, pickedCount, guardCount]
  | [], _ :: _, dp, p0, g0, hleg, _, _, _, _, _ => absurd hleg (by simp [legalChoices])
  | _ :: _, [], dp, p0, g0, hleg, _, _, _, _, _ => absurd hleg (by simp [legalChoices])
  | it :: its, c :: cs, dp, p0, g0, hleg, hnn, hdp, hp, hg, hpg => by
      obtain ⟨hc, hleg'⟩ := hleg
      have hnn' : ∀ x ∈ its, 0 ≤ x.1 := fun x hx => hnn x (List.mem_cons_of_mem it hx)
      have hnn0 : 0 ≤ it.1 := hnn it (List.mem_cons_self it its)
      have hGP : guardCount cs ≤ pickedCount cs := guardCount_le_pickedCount cs
      have hfold : dpFold dp (it :: its) = dpFold (dpStep it.1 (sanitizePC it.2) dp) its := rfl
      cases c with
      | skip =>
          have hpk : pickedCount (Choice.skip :: cs) = pickedCount cs := by
            simp [pickedCount, chPicked]
          have hgd : guardCount (Choice.skip :: cs) = guardCount cs := by
            simp [guardCount, chGuards]
          rw [hfold, hpk, hgd]
          have hmono := dpStep_le it.1 (sanitizePC it.2) dp p0 g0
          have := dpFold_ge_choice its cs (dpStep it.1 (sanitizePC it.2) dp) p0 g0
            hleg' hnn' (le_trans hdp hmono)
            (by rw [hpk] at hp; exact hp) (by rw [hgd] at hg; exact hg)
            (by rw [hpk, hgd] at hpg; exact hpg)
          have hsum : chosenSum (it :: its) (Choice.skip :: cs) = chosenSum its cs := by
            simp [chosenSum]
          rw [hsum]
          omega
      | guard =>
          have hpk : pickedCount (Choice.guard :: cs) = 1 + pickedCount cs := by
            simp [pickedCount, chPicked]
          have hgd : guardCount (Choice.guard :: cs) = 1 + guardCount cs := by
            simp [guardCount, chGuards]
          rw [hfold, hpk, hgd]
          rw [hpk] at hp hpg
          rw [hgd] at hg hpg
          have hstep : dp p0 g0 + it.1 ≤ dpStep it.1 (sanitizePC it.2) dp (p0 + 1) (g0 + 1) := by
            have h := dpStep_guard_ge it.1 (sanitizePC it.2) dp (p0 + 1) (g0 + 1) hc
              (by omega) (by omega) (by omega) (by omega) (by omega)
              (by simp only [Nat.add_sub_cancel]; intro hEq; rw [hEq] at hdp
                  exact absurd (lt_of_lt_of_le NEG_lt_zero hdp) (lt_irrefl _))
            simpa using h
          have hrec := dpFold_ge_choice its cs (dpStep it.1 (sanitizePC it.2) dp)
            (p0 + 1) (g0 + 1) hleg' hnn'
            (le_trans (by omega) hstep)
            (by omega) (by omega) (by omega)
          have hsum : chosenSum (it :: its) (Choice.guard :: cs) = it.1 + chosenSum its cs := by
            simp [chosenSum]
          rw [hsum]
          have hidx1 : p0 + 1 + pickedCount cs = p0 + (1 + pickedCount cs) := by omega
          have hidx2 : g0 + 1 + guardCount cs = g0 + (1 + guardCount cs) := by omega
          rw [hidx1, hidx2] at hrec
          omega
      | fwd =>
          have hpk : pickedCount (Choice.fwd :: cs) = 1 + pickedCount cs := by
            simp [pickedCount, chPicked]
          have hgd : guardCount (Choice.fwd :: cs) = guardCount cs := by
            simp [guardCount, chGuards]
          rw [hfold, hpk, hgd]
          rw [hpk] at hp hpg
          rw [hgd] at hg hpg
          have hstep : dp p0 g0 + it.1 ≤ dpStep it.1 (sanitizePC it.2) dp (p0 + 1) g0 := by
            have h := dpStep_forward_ge it.1 (sanitizePC it.2) dp (p0 + 1) g0 hc
              (by omega) (by omega) (by omega) (by omega)
              (by simp only [Nat.add_sub_cancel]; intro hEq; rw [hEq] at hdp
                  exact absurd (lt_of_lt_of_le NEG_lt_zero hdp) (lt_irrefl _))
            simpa using h
          have hrec := dpFold_ge_choice its cs (dpStep it.1 (sanitizePC it.2) dp)
            (p0 + 1) g0 hleg' hnn'
            (le_trans (by omega) hstep)
            (by omega) (by omega) (by omega)
          have hsum : chosenSum (it :: its) (Choice.fwd :: cs) = it.1 + chosenSum its cs := by
            simp [chosenSum]
          rw [hsum]
          have hidx1 : p0 + 1 + pickedCount cs = p0 + (1 + pickedCount cs) := by omega
          rw [hidx1] at hrec
          omega

theorem legalChoices_length : ∀ (items : List (Int × String)) (cs : List Choice),
    legalChoices items cs → items.length = cs.length
  | [], [], _ => rfl
  | [], _ :: _, h => absurd h (by simp [legalChoices])
  | _ :: _, [], h => absurd h (by simp [legalChoices])
  | _ :: its, _ :: cs, h => by
      simp only [List.length_cons]
      rw [legalChoices_length its cs h.2]

theorem pickedCount_le_length : ∀ cs : List Choice, pickedCount cs ≤ cs.length
  | [] => le_refl 0
  | c :: cs => by
      have ih := pickedCount_le_length cs
      have hc : chPicked c ≤ 1 := by cases c <;> decide
      simp only [pickedCount, List.map_cons, List.sum_cons, List.length_cons] at *
      omega

theorem dpFold_nonneg_inv :
    ∀ (items : List (Int × String)) (dp : Nat → Nat → Int),
      (∀ x ∈ items, 0 ≤ x.1) →
      (∀ p g, dp p g = NEG ∨ 0 ≤ dp p g) →
      ∀ p g, dpFold dp items p g = NEG ∨ 0 ≤ dpFold dp items p g
  | [], dp, _, hinv, p, g => hinv p g
  | it :: its, dp, hnn, hinv, p, g => by
      refine dpFold_nonneg_inv its (dpStep it.1 (sanitizePC it.2) dp)
        (fun x hx => hnn x (List.mem_cons_of_mem it hx)) ?_ p g
      intro p' g'
      have hnn0 : 0 ≤ it.1 := hnn it (List.mem_cons_self it its)
      unfold dpStep
      by_cases h1 : guardEligible (sanitizePC it.2) = true ∧ 1 ≤ p' ∧ p' ≤ 5 ∧ 1 ≤ g' ∧
          g' ≤ 3 ∧ p' ≤ g' + 3 ∧ dp (p' - 1) (g' - 1) ≠ NEG
      · rw [if_pos h1]
        have hsrc : 0 ≤ dp (p' - 1) (g' - 1) := by
          rcases hinv (p' - 1) (g' - 1) with h | h
          · exact absurd h h1.2.2.2.2.2.2
          · exact h
        by_cases h2 : forwardEligible (sanitizePC it.2) = true ∧ 1 ≤ p' ∧ p' ≤ 5 ∧ g' ≤ 3 ∧
            p' ≤ g' + 3 ∧ dp (p' - 1) g' ≠ NEG
        · rw [if_pos h2]
          right
          have : (0 : Int) ≤ dp (p' - 1) (g' - 1) + it.1 := by omega
          exact le_trans this (le_trans (le_max_right _ _) (le_max_left _ _))
        · rw [if_neg h2]
          right
          have : (0 : Int) ≤ dp (p' - 1) (g' - 1) + it.1 := by omega
          exact le_trans this (le_max_right _ _)
      · rw [if_neg h1]
        by_cases h2 : forwardEligible (sanitizePC it.2) = true ∧ 1 ≤ p' ∧ p' ≤ 5 ∧ g' ≤ 3 ∧
            p' ≤ g' + 3 ∧ dp (p' - 1) g' ≠ NEG
        · rw [if_pos h2]
          have hsrc : 0 ≤ dp (p' - 1) g' := by
            rcases hinv (p' - 1) g' with h | h
            · exact absurd h h2.2.2.2.2.2
            · exact h
          right
          have : (0 : Int) ≤ dp (p' - 1) g' + it.1 := by omega
          exact le_trans this (le_max_right _ _)
        · rw [if_neg h2]
          exact hinv p' g'

theorem dpInit_nonneg_inv : ∀ p g, dpInit p g = NEG ∨ 0 ≤ dpInit p g := by
  intro p g
  unfold dpInit
  by_cases h : p = 0 ∧ g = 0
  · rw [if_pos h]; right; exact le_refl 0
  · rw [if_neg h]; left; rfl

theorem solver_ge_legal_choice (items : List (Int × String)) (cs : List Choice)
    (hleg : legalChoices items cs) (hnn : ∀ x ∈ items, 0 ≤ x.1)
    (hpk : pickedCount cs = 5) (hg2 : 2 ≤ guardCount cs) (hg3 : guardCount cs ≤ 3) :
    chosenSum items cs ≤ best_valid_lineup_sum items := by
  have hlen : items.length = cs.length := legalChoices_length items cs hleg
  have hlen5 : ¬ items.length < 5 := by
    have := pickedCount_le_length cs
    omega
  have hbound := dpFold_ge_choice items cs dpInit 0 0 hleg hnn
    (by unfold dpInit; rw [if_pos ⟨rfl, rfl⟩])
    (by simpa using hpk.le) (by simpa using hg3) (by omega)
  simp only [Nat.zero_add, hpk] at hbound
  have hinit : dpInit 0 0 = 0 := by unfold dpInit; rw [if_pos ⟨rfl, rfl⟩]
  rw [hinit, zero_add] at hbound
  unfold best_valid_lineup_sum
  rw [if_neg hlen5]
  have hrun : runDP items = dpFold dpInit items := rfl
  have hcsnn : 0 ≤ chosenSum items cs := chosenSum_nonneg items cs hnn
  have hG : guardCount cs = 2 ∨ guardCount cs = 3 := by omega
  have hle : chosenSum items cs ≤ max (dpFold dpInit items 5 2) (dpFold dpInit items 5 3) := by
    rcases hG with h | h
    · rw [h] at hbound
      exact le_trans hbound (le_max_left _ _)
    · rw [h] at hbound
      exact le_trans hbound (le_max_right _ _)
  have hne : ¬ max (dpFold dpInit items 5 2) (dpFold dpInit items 5 3) = NEG := by
    intro hEq
    rw [hEq] at hle
    have := NEG_lt_zero
    omega
  simp only [hrun]
  rw [if_neg hne]
  exact hle

theorem dpFold_guardOnly_inv :
    ∀ (items : List (Int × String)) (dp : Nat → Nat → Int),
      (∀ x ∈ items, x.2 = "G") →
      (∀ p g, dp p g ≠ NEG → p = g) →
      ∀ p g, dpFold dp items p g ≠ NEG → p = g
  | [], dp, _, hinv, p, g, hne => hinv p g hne
  | it :: its, dp, hG, hinv, p, g, hne => by
      refine dpFold_guardOnly_inv its (dpStep it.1 (sanitizePC it.2) dp)
        (fun x hx => hG x (List.mem_cons_of_mem it hx)) ?_ p g hne
      intro p' g' hne'
      have hsan : sanitizePC it.2 = "G" := by
        rw [hG it (List.mem_cons_self it its)]
        rfl
      have hfwd : forwardEligible (sanitizePC it.2) = false := by
        rw [hsan]
        rfl
      unfold dpStep at hne'
      rw [if_neg (by rw [hfwd]; simp)] at hne'
      by_cases h1 : guardEligible (sanitizePC it.2) = true ∧ 1 ≤ p' ∧ p' ≤ 5 ∧ 1 ≤ g' ∧
          g' ≤ 3 ∧ p' ≤ g' + 3 ∧ dp (p' - 1) (g' - 1) ≠ NEG
      · have := hinv (p' - 1) (g' - 1) h1.2.2.2.2.2.2
        omega
      · rw [if_neg h1] at hne'
        exact hinv p' g' hne'

theorem solver_nonneg_of_nonneg (items : List (Int × String))
    (hnn : ∀ x ∈ items, 0 ≤ x.1) : 0 ≤ best_valid_lineup_sum items := by
  unfold best_valid_lineup_sum
  by_cases hlen : items.length < 5
  · rw [if_pos hlen]
  · rw [if_neg hlen]
    have hinv := dpFold_nonneg_inv items dpInit hnn dpInit_nonneg_inv
    rcases hinv 5 2 with h2 | h2 <;> rcases hinv 5 3 with h3 | h3
    · have : max (runDP items 5 2) (runDP items 5 3) = NEG := by
        show max (dpFold dpInit items 5 2) (dpFold dpInit items 5 3) = NEG
        rw [h2, h3, max_self]
      rw [if_pos this]
    · have : ¬ max (runDP items 5 2) (runDP items 5 3) = NEG := by
        show ¬ max (dpFold dpInit items 5 2) (dpFold dpInit items 5 3) = NEG
        intro hEq
        have hle := le_max_right (dpFold dpInit items 5 2) (dpFold dpInit items 5 3)
        rw [hEq] at hle
        have := NEG_lt_zero
        omega
      rw [if_neg this]
      exact le_trans h3 (le_max_right _ _)
    · have : ¬ max (runDP items 5 2) (runDP items 5 3) = NEG := by
        show ¬ max (dpFold dpInit items 5 2) (dpFold dpInit items 5 3) = NEG
        intro hEq
        have hle := le_max_left (dpFold dpInit items 5 2) (dpFold dpInit items 5 3)
        rw [hEq] at hle
        have := NEG_lt_zero
        omega
      rw [if_neg this]
      exact le_trans h2 (le_max_left _ _)
    · have : ¬ max (runDP items 5 2) (runDP items 5 3) = NEG := by
        show ¬ max (dpFold dpInit items 5 2) (dpFold dpInit items 5 3) = NEG
        intro hEq
        have hle := le_max_left (dpFold dpInit items 5 2) (dpFold dpInit items 5 3)
        rw [hEq] at hle
        have := NEG_lt_zero
        omega
      rw [if_neg this]
      exact le_trans h2 (le_max_left _ _)

theorem map_congr_mem {α β : Type} : ∀ (l : List α) (f g : α → β),
    (∀ a ∈ l, f a = g a) → l.map f = l.map g
  | [], _, _, _ => rfl
  | a :: l', f, g, h => by
      simp only [List.map_cons, h a (List.mem_cons_self a l')]
      rw [map_congr_mem l' f g (fun b hb => h b (List.mem_cons_of_mem a hb))]

/-- C4: for the candidate pool (20,G),(18,G),(15,G),(14,F),(12,F),(10,F) the
lineup solver returns exactly 79, the optimal legal 3-guard 2-forward
lineup 20+18+15+14+12. -/
theorem lineup_concrete_optimum :
    best_valid_lineup_sum
      [(20, "G"), (18, "G"), (15, "G"), (14, "F"), (12, "F"), (10, "F")] = 79 := by
  decide

/-- C5: for every pool of exactly five candidates all classified guard-only,
the lineup solver returns 0: with zero forward-eligible candidates no
selection of five can keep the guard count at most 3, so both terminal DP
states stay at the sentinel. -/
theorem lineup_all_guards_zero (items : List (Int × String))
    (hlen : items.length = 5) (hG : ∀ x ∈ items, x.2 = "G") :
    best_valid_lineup_sum items = 0 := by
  have hinv := dpFold_guardOnly_inv items dpInit hG
    (by
      intro p g hne
      unfold dpInit at hne
      by_cases h : p = 0 ∧ g = 0
      · omega
      · rw [if_neg h] at hne
        exact absurd rfl hne)
  unfold best_valid_lineup_sum
  rw [if_neg (by omega)]
  have h52 : runDP items 5 2 = NEG := by
    by_contra hne
    exact absurd (hinv 5 2 hne) (by omega)
  have h53 : runDP items 5 3 = NEG := by
    by_contra hne
    exact absurd (hinv 5 3 hne) (by omega)
  simp only [h52, h53, max_self, if_pos]

/-- Witness for C5 at a concrete all-guard pool of five. -/
theorem lineup_all_guards_zero_witness :
    best_valid_lineup_sum [(9, "G"), (8, "G"), (7, "G"), (6, "G"), (5, "G")] = 0 :=
  lineup_all_guards_zero [(9, "G"), (8, "G"), (7, "G"), (6, "G"), (5, "G")]
    rfl (by decide)

/-- C10 counterexample: with negative candidate scores the solver's result is
negative, refuting the claim that the returned value is always a
nonnegative integer. -/
theorem solver_negative_counterexample :
    best_valid_lineup_sum [(-1, "G"), (-1, "G"), (-1, "F"), (-1, "F"), (-1, "F")] = -5 ∧
    best_valid_lineup_sum [(-1, "G"), (-1, "G"), (-1, "F"), (-1, "F"), (-1, "F")] < 0 := by
  decide

theorem dpFold_sound :
    ∀ (items : List (Int × String)) (dp : Nat → Nat → Int) (p g : Nat),
      dpFold dp items p g ≠ NEG →
      ∃ (p0 g0 : Nat) (cs : List Choice),
        dp p0 g0 ≠ NEG ∧ legalChoices items cs ∧
        p = p0 + pickedCount cs ∧ g = g0 + guardCount cs
  | [], dp, p, g, hne =>
      ⟨p, g, [], hne, trivial, by simp [pickedCount], by simp [guardCount]⟩
  | it :: its, dp, p, g, hne => by
      have hstep : dpFold dp (it :: its) = dpFold (dpStep it.1 (sanitizePC it.2) dp) its :=
        rfl
      rw [hstep] at hne
      obtain ⟨p0, g0, cs, hne0, hleg, hp, hg⟩ :=
        dpFold_sound its (dpStep it.1 (sanitizePC it.2) dp) p g hne
      by_cases hG : guardEligible (sanitizePC it.2) = true ∧ 1 ≤ p0 ∧ p0 ≤ 5 ∧
          1 ≤ g0 ∧ g0 ≤ 3 ∧ p0 ≤ g0 + 3 ∧ dp (p0 - 1) (g0 - 1) ≠ NEG
      · have hpk : pickedCount (Choice.guard :: cs) = 1 + pickedCount cs := by
          simp [pickedCount, chPicked]
        have hgd : guardCount (Choice.guard :: cs) = 1 + guardCount cs := by
          simp [guardCount, chGuards]
        have hp1 : 1 ≤ p0 := hG.2.1
        have hg1 : 1 ≤ g0 := hG.2.2.2.1
        refine ⟨p0 - 1, g0 - 1, Choice.guard :: cs, hG.2.2.2.2.2.2, ⟨hG.1, hleg⟩, ?_, ?_⟩
        · rw [hpk]; omega
        · rw [hgd]; omega
      · by_cases hF : forwardEligible (sanitizePC it.2) = true ∧ 1 ≤ p0 ∧ p0 ≤ 5 ∧
            g0 ≤ 3 ∧ p0 ≤ g0 + 3 ∧ dp (p0 - 1) g0 ≠ NEG
        · have hpk : pickedCount (Choice.fwd :: cs) = 1 + pickedCount cs := by
            simp [pickedCount, chPicked]
          have hgd : guardCount (Choice.fwd :: cs) = guardCount cs := by
            simp [guardCount, chGuards]
          have hp1 : 1 ≤ p0 := hF.2.1
          refine ⟨p0 - 1, g0, Choice.fwd :: cs, hF.2.2.2.2.2, ⟨hF.1, hleg⟩, ?_, ?_⟩
          · rw [hpk]; omega
          · rw [hgd]; omega
        · have hv : dpStep it.1 (sanitizePC it.2) dp p0 g0 = dp p0 g0 := by
            unfold dpStep
            rw [if_neg hF, if_neg hG]
          rw [hv] at hne0
          have hpk : pickedCount (Choice.skip :: cs) = pickedCount cs := by
            simp [pickedCount, chPicked]
          have hgd : guardCount (Choice.skip :: cs) = guardCount cs := by
            simp [guardCount, chGuards]
          refine ⟨p0, g0, Choice.skip :: cs, hne0, ⟨trivial, hleg⟩, ?_, ?_⟩
          · rw [hpk]; exact hp
          · rw [hgd]; exact hg

/-- C10 amended: the solver is a total function that never signals an error;
infeasibility yields exactly 0 both for pools of fewer than five candidates
and for pools admitting no legal assignment of exactly five players with two
or three guard slots; and when every candidate score is nonnegative the
result is nonnegative (with negative scores a feasible pool can return a
negative sum). -/
theorem solver_total_and_nonneg (items : List (Int × String)) :
    ((∀ x ∈ items, 0 ≤ x.1) → 0 ≤ best_valid_lineup_sum items) ∧
    (items.length < 5 → best_valid_lineup_sum items = 0) ∧
    ((¬ ∃ cs, legalChoices items cs ∧ pickedCount cs = 5 ∧
        2 ≤ guardCount cs ∧ guardCount cs ≤ 3) →
      best_valid_lineup_sum items = 0) := by
  refine ⟨fun hnn => solver_nonneg_of_nonneg items hnn, ?_, ?_⟩
  · intro hlt
    unfold best_valid_lineup_sum
    rw [if_pos hlt]
  · intro hinf
    unfold best_valid_lineup_sum
    by_cases hlen : items.length < 5
    · rw [if_pos hlen]
    · rw [if_neg hlen]
      have hinit : ∀ p0 g0 : Nat, dpInit p0 g0 ≠ NEG → p0 = 0 ∧ g0 = 0 := by
        intro p0 g0 hne0
        by_contra hz
        have : dpInit p0 g0 = NEG := by unfold dpInit; rw [if_neg hz]
        exact hne0 this
      have h52 : runDP items 5 2 = NEG := by
        by_contra hne
        obtain ⟨p0, g0, cs, hne0, hleg, hp, hg⟩ := dpFold_sound items dpInit 5 2 hne
        obtain ⟨hz1, hz2⟩ := hinit p0 g0 hne0
        exact hinf ⟨cs, hleg, by omega, by omega, by omega⟩
      have h53 : runDP items 5 3 = NEG := by
        by_contra hne
        obtain ⟨p0, g0, cs, hne0, hleg, hp, hg⟩ := dpFold_sound items dpInit 5 3 hne
        obtain ⟨hz1, hz2⟩ := hinit p0 g0 hne0
        exact hinf ⟨cs, hleg, by omega, by omega, by omega⟩
      simp only [h52, h53, max_self, if_pos]

/-- Witness for C10 at a concrete two-candidate pool, discharging the
nonnegative-scores, short-pool, and no-legal-assignment hypotheses there. -/
theorem solver_total_and_nonneg_witness :
    0 ≤ best_valid_lineup_sum [(3, "G"), (1, "F")] ∧
    best_valid_lineup_sum [(3, "G"), (1, "F")] = 0 ∧
    best_valid_lineup_sum [(3, "G"), (1, "F")] = 0 :=
  ⟨(solver_total_and_nonneg [(3, "G"), (1, "F")]).1 (by decide),
   (solver_total_and_nonneg [(3, "G"), (1, "F")]).2.1 (by decide),
   (solver_total_and_nonneg [(3, "G"), (1, "F")]).2.2 (by
      intro h
      obtain ⟨cs, hleg, hpk, _⟩ := h
      have h1 := legalChoices_length [(3, "G"), (1, "F")] cs hleg
      have h2 := pickedCount_le_length cs
      simp only [List.length_cons, List.length_nil] at h1
      omega)⟩

/-- C3 counterexample: with the mapping-table input missing, the
player-summary and summary-to-date loaders succeed with an empty mapping and
the run continues, refuting the claim that a missing mapping table is always
fatal. -/
theorem missing_map_nonfatal_counterexample :
    exceptIsOk (bpps_load_team_name_map none) = true ∧
    exceptIsOk (bstd_load_team_name_map none) = true := by
  exact ⟨rfl, rfl⟩

/-- C3 amended: only the team-pages builder fails fatally when the mapping
table is missing; the player-summary and summary-to-date builders continue
with an empty mapping. -/
theorem missing_map_fatal_only_in_team_pages :
    exceptIsOk (btp_load_team_name_map none) = false ∧
    bpps_load_team_name_map none = Except.ok [] ∧
    bstd_load_team_name_map none = Except.ok [] := by
  exact ⟨rfl, rfl, rfl⟩

/-- C7: with the mapping table Acme to The Eagles, a row labelled Acme and a
row labelled The Eagles resolve to the same canonical bucket key, and folding
both rows for one period writes into that single bucket (no bucket is created
under the raw acme key). -/
theorem owner_alias_same_bucket :
    bucketKey [("Acme", "The Eagles")] "Acme" =
      bucketKey [("Acme", "The Eagles")] "The Eagles" ∧
    foldOwnerTotals [("Acme", "The Eagles")] 4 [("Acme", 7), ("The Eagles", 9)]
      (bucketKey [("Acme", "The Eagles")] "Acme") 4 = some 9 ∧
    foldOwnerTotals [("Acme", "The Eagles")] 4 [("Acme", 7), ("The Eagles", 9)]
      "acme" 4 = none := by
  decide

/-- C9 counterexample: the underscore is not a letter, digit, or whitespace
character, yet it survives normalization unchanged, refuting the claim that
every such character is replaced by a space. -/
theorem underscore_survives_counterexample :
    norm_name "a_b" = "a_b" ∧ '_' ∈ (norm_name "a_b").data ∧
    ('_'.isAlpha || '_'.isDigit || '_'.isWhitespace) = false := by
  decide

/-- C9 amended: the normalizer replaces every character that is not a word
character (letter, digit, or underscore) and not whitespace with a space, so
every character of the output key is a word character or a space; in
particular the underscore survives. -/
theorem norm_name_output_chars (s : String) :
    ∀ c ∈ (norm_name s).data, isWordChar c = true ∨ c = ' ' :=
  fun c hc => normChars_chars s.data c hc

/-- Witness for C9 amelioration at a concrete input with punctuation. -/
theorem norm_name_output_chars_witness :
    isWordChar 'a' = true ∨ 'a' = ' ' :=
  norm_name_output_chars "a!b" 'a' (by decide)

/-- C8: the name normalizer is idempotent: normalizing an already-normalized
string returns it unchanged. -/
theorem norm_name_idempotent (s : String) :
    norm_name (norm_name s) = norm_name s :=
  congrArg String.mk (normChars_idem s.data)

theorem foldRow_played (tm : List (String × String)) (st : PState) (r : SRow)
    (hkey : norm_name r.player ≠ "") (k : String) (q : Nat) :
    (foldRow tm st r).played k q =
      if k = norm_name r.player ∧ q = r.pd then true else st.played k q := by
  simp only [foldRow]
  rw [if_neg hkey]

theorem foldRow_pooh (tm : List (String × String)) (st : PState) (r : SRow)
    (hkey : norm_name r.player ≠ "") (k : String) (q : Nat) :
    (foldRow tm st r).pooh k q =
      if k = norm_name r.player ∧ q = r.pd then some r.pooh else st.pooh k q := by
  simp only [foldRow]
  rw [if_neg hkey]

theorem foldRow_games (tm : List (String × String)) (st : PState) (r : SRow)
    (hkey : norm_name r.player ≠ "") (k : String) :
    (foldRow tm st r).games k =
      if k = norm_name r.player then st.games k + 1 else st.games k := by
  simp only [foldRow]
  rw [if_neg hkey]

/-- C6: folding a row whose score is 0 leaves the player's sparse per-period
map with an entry some 0 at that period and marks the period as played,
while a state in which no row for that player and period was ever folded has
no entry there (none); the two are distinguishable. -/
theorem zero_score_entry_present (tm : List (String × String)) (st : PState)
    (r : SRow) (hkey : norm_name r.player ≠ "") (hz : r.pooh = 0) :
    (foldRow tm st r).pooh (norm_name r.player) r.pd = some 0 ∧
    (foldRow tm st r).played (norm_name r.player) r.pd = true ∧
    initPState.pooh (norm_name r.player) r.pd = none ∧
    some (0 : Int) ≠ (none : Option Int) := by
  refine ⟨?_, ?_, rfl, by simp⟩
  · rw [foldRow_pooh tm st r hkey, if_pos ⟨rfl, rfl⟩, hz]
  · rw [foldRow_played tm st r hkey, if_pos ⟨rfl, rfl⟩]

/-- Witness for C6: a concrete zero-score non-starter row for player P in
period 3. -/
theorem zero_score_entry_present_witness :
    (foldRow [] initPState ⟨"P", 3, 0, 0, 0, 0, 0, 0, 0, "", false⟩).pooh
        (norm_name "P") 3 = some 0 ∧
    (foldRow [] initPState ⟨"P", 3, 0, 0, 0, 0, 0, 0, 0, "", false⟩).played
        (norm_name "P") 3 = true ∧
    initPState.pooh (norm_name "P") 3 = none ∧
    some (0 : Int) ≠ (none : Option Int) :=
  zero_score_entry_present [] initPState ⟨"P", 3, 0, 0, 0, 0, 0, 0, 0, "", false⟩
    (by decide) rfl

/-- C2 counterexample: folding the identical row twice increments the
games-played counter twice (one increment per row processed), so the
games-played count after two folds differs from the count after one. -/
theorem double_fold_games_counterexample :
    (foldRow [] (foldRow [] initPState ⟨"p", 3, 5, 2, 1, 0, 0, 0, 0, "A", false⟩)
        ⟨"p", 3, 5, 2, 1, 0, 0, 0, 0, "A", false⟩).games "p" = 2 ∧
    (foldRow [] initPState ⟨"p", 3, 5, 2, 1, 0, 0, 0, 0, "A", false⟩).games "p" = 1 ∧
    ¬ ((foldRow [] (foldRow [] initPState ⟨"p", 3, 5, 2, 1, 0, 0, 0, 0, "A", false⟩)
          ⟨"p", 3, 5, 2, 1, 0, 0, 0, 0, "A", false⟩).games "p" =
        (foldRow [] initPState ⟨"p", 3, 5, 2, 1, 0, 0, 0, 0, "A", false⟩).games "p") := by
  decide

/-- C2 amended: folding the identical row twice leaves the running score
total exactly as after one fold (the sparse map entry is overwritten with the
same value), but the games-played count goes up by one more per fold. -/
theorem double_fold_total_stable (tm : List (String × String)) (st : PState)
    (r : SRow) (k : String) (m : Nat) :
    totalPooh (foldRow tm (foldRow tm st r) r) k m =
      totalPooh (foldRow tm st r) k m ∧
    (norm_name r.player ≠ "" →
      (foldRow tm (foldRow tm st r) r).games (norm_name r.player) =
        (foldRow tm st r).games (norm_name r.player) + 1) := by
  constructor
  · by_cases hkey : norm_name r.player = ""
    · have h1 : foldRow tm st r = st := by simp [foldRow, hkey]
      rw [h1, h1]
    · unfold totalPooh
      refine congrArg List.sum (map_congr_mem _ _ _ ?_)
      intro pd _
      rw [foldRow_played tm (foldRow tm st r) r hkey k pd,
        foldRow_pooh tm (foldRow tm st r) r hkey k pd,
        foldRow_played tm st r hkey k pd,
        foldRow_pooh tm st r hkey k pd]
      by_cases hm : k = norm_name r.player ∧ pd = r.pd
      · simp [hm]
      · simp [hm]
  · intro hkey
    rw [foldRow_games tm (foldRow tm st r) r hkey, if_pos rfl]

/-- C1 counterexample: a starter whose team's candidate pool has fewer than
five rostered players present makes actualScore exceed maxScore (the solver
returns 0 for pools smaller than five), refuting the unconditional
invariant. -/
theorem actual_exceeds_max_counterexample :
    maxFor [⟨"A", "p", 10, true⟩] [("p", "G")] = 0 ∧
    actualFor [] [⟨"A", "p", 10, true⟩] "A" = 10 ∧
    ¬ (actualFor [] [⟨"A", "p", 10, true⟩] "A" ≤
        maxFor [⟨"A", "p", 10, true⟩] [("p", "G")]) := by
  decide

/-- C1 amended: maxScore is at least actualScore whenever the starters
correspond to a legal selection from the period's candidate pool (exactly
five candidates, each assigned a slot its class permits, with two or three
guard slots) whose chosen scores sum to actualScore, and every candidate
score in the pool is nonnegative.  Without these provisos (quota-violating
or unrostered or absent starters, pools under five, negative scores) the
inequality can fail, as the counterexample shows. -/
theorem actual_le_max_of_legal_starters (tmRev : List (String × String))
    (rows : List TRow) (roster : List (String × String)) (owner : String)
    (cs : List Choice)
    (hleg : legalChoices (itemsFor rows roster) cs)
    (hnn : ∀ x ∈ itemsFor rows roster, 0 ≤ x.1)
    (hpk : pickedCount cs = 5)
    (hg2 : 2 ≤ guardCount cs) (hg3 : guardCount cs ≤ 3)
    (hact : chosenSum (itemsFor rows roster) cs = actualFor tmRev rows owner) :
    actualFor tmRev rows owner ≤ maxFor rows roster := by
  rw [← hact]
  exact solver_ge_legal_choice (itemsFor rows roster) cs hleg hnn hpk hg2 hg3

/-- Witness for C1 at a concrete team whose five starters form a legal
two-guard three-forward lineup. -/
theorem actual_le_max_of_legal_starters_witness :
    actualFor []
      [⟨"A", "pa", 4, true⟩, ⟨"A", "pb", 3, true⟩, ⟨"A", "pc", 2, true⟩,
       ⟨"A", "pd", 1, true⟩, ⟨"A", "pe", 0, true⟩] "A" ≤
    maxFor
      [⟨"A", "pa", 4, true⟩, ⟨"A", "pb", 3, true⟩, ⟨"A", "pc", 2, true⟩,
       ⟨"A", "pd", 1, true⟩, ⟨"A", "pe", 0, true⟩]
      [("pa", "G"), ("pb", "G"), ("pc", "F"), ("pd", "F"), ("pe", "F")] :=
  actual_le_max_of_legal_starters []
    [⟨"A", "pa", 4, true⟩, ⟨"A", "pb", 3, true⟩, ⟨"A", "pc", 2, true⟩,
     ⟨"A", "pd", 1, true⟩, ⟨"A", "pe", 0, true⟩]
    [("pa", "G"), ("pb", "G"), ("pc", "F"), ("pd", "F"), ("pe", "F")] "A"
    [Choice.guard, Choice.guard, Choice.fwd, Choice.fwd, Choice.fwd]
    ⟨rfl, rfl, rfl, rfl, rfl, trivial⟩ (by decide) (by decide) (by decide)
    (by decide) (by decide)

/-- Witness for C2 at a concrete row folded twice. -/
theorem double_fold_total_stable_witness :
    totalPooh
        (foldRow [] (foldRow [] initPState ⟨"p", 3, 5, 2, 1, 0, 0, 0, 0, "A", false⟩)
          ⟨"p", 3, 5, 2, 1, 0, 0, 0, 0, "A", false⟩) "p" 5 =
      totalPooh (foldRow [] initPState ⟨"p", 3, 5, 2, 1, 0, 0, 0, 0, "A", false⟩) "p" 5 ∧
    (foldRow [] (foldRow [] initPState ⟨"p", 3, 5, 2, 1, 0, 0, 0, 0, "A", false⟩)
        ⟨"p", 3, 5, 2, 1, 0, 0, 0, 0, "A", false⟩).games (norm_name "p") =
      (foldRow [] initPState ⟨"p", 3, 5, 2, 1, 0, 0, 0, 0, "A", false⟩).games
        (norm_name "p") + 1 :=
  ⟨(double_fold_total_stable [] initPState ⟨"p", 3, 5, 2, 1, 0, 0, 0, 0, "A", false⟩
      "p" 5).1,
   (double_fold_total_stable [] initPState ⟨"p", 3, 5, 2, 1, 0, 0, 0, 0, "A", false⟩
      "p" 5).2 (by decide)⟩
